import Mathlib

/-!
Verification of the chunking, indexing and retrieval pipeline of the
fccassistant repository, against its natural-language specification.

Strings are modelled as `List Char`.  The Python helpers that the pipeline
relies on (slicing, `strip`, `re.split`, `re.sub`, negative list indexing)
are embedded as executable functions on `List Char`, following CPython
semantics (left-to-right, non-overlapping, greedy matching for the concrete
regular expressions appearing in the source).  Machine floats appear in the
source only in `words * 1.33`, `chars / 4` and `window_chars * 0.9`; these
are modelled by exact rational / integer arithmetic as noted at each
definition.  Loops whose progress is not structural in a list are given a
`fuel` parameter that provably dominates the number of iterations, so that
all definitions reduce inside the kernel.
-/

set_option maxHeartbeats 1000000

/-- Convert a string literal to the `List Char` representation used here. -/
def strL (s : String) : List Char := s.toList

/-- Characters stripped by Python `str.strip()` (ASCII whitespace). -/
def isPyWS (c : Char) : Bool :=
  c == ' ' || c == '\t' || c == '\n' || c == '\r' || c == '\x0b' || c == '\x0c'

/-- Python `s.strip()`: drop whitespace from both ends. -/
def pyStrip (l : List Char) : List Char :=
  ((l.dropWhile isPyWS).reverse.dropWhile isPyWS).reverse

/-- Python slice `text[a:b]` (clamping, empty when `b ≤ a`). -/
def pySlice (l : List Char) (a b : Nat) : List Char :=
  (l.take b).drop a

/-- Python substring containment `pat in t`. -/
def containsSub (pat : List Char) : List Char → Bool
  | [] => pat.isEmpty
  | c :: r => pat.isPrefixOf (c :: r) || containsSub pat r

/-- The two-newline separator used by the chunkers (`"\n\n"`). -/
def nlnl : List Char := ['\n', '\n']

/-- A single newline, as a one-character string (`"\n"`). -/
def nlL : List Char := ['\n']

/-- `pdf_ingest._count_tokens`, in the configured (tiktoken-less) fallback
branch: `max(1, len(s) // CHARS_PER_TOKEN)` with `CHARS_PER_TOKEN = 3`. -/
def count_tokens (s : List Char) : Nat :=
  max 1 (s.length / 3)

/-- State-machine pass of Python `s.split()` word counting: `inWord` records
whether the previous character was part of a word. -/
def countWordsAux : Bool → List Char → Nat
  | _, [] => 0
  | inWord, c :: r =>
    if isPyWS c then countWordsAux false r
    else (if inWord then 0 else 1) + countWordsAux true r

/-- Number of words of Python `s.split()`: maximal runs of
non-whitespace characters. -/
def countWords (s : List Char) : Nat := countWordsAux false s

/-- `embed_and_index.estimate_tokens`, fallback branch:
`max(ceil(words * 1.33), ceil(chars / 4))`.  The float products are modelled
exactly: `ceil(w * 1.33) = (133*w + 99) / 100` and
`ceil(c / 4) = (c + 3) / 4` in natural-number arithmetic. -/
def estimate_tokens (s : List Char) : Nat :=
  max ((133 * countWords s + 99) / 100) ((s.length + 3) / 4)

/-- The heuristic exactly as the spec words it:
`max(ceil(words × 1.33), ceil(chars / 4))`, with real ceilings over `ℚ`. -/
def specHeuristic (s : List Char) : Nat :=
  max ⌈(countWords s : ℚ) * 1.33⌉₊ ⌈(s.length : ℚ) / 4⌉₊

/-- FATF signal phrases of `pdf_ingest._detect_source`. -/
def fatfSignals : List (List Char) :=
  [strL "financial action task force",
   strL "fatf recommendations",
   strL "interpretive notes to the fatf recommendations",
   strL "mutual evaluations (fatf"]

/-- OFAC signal phrases of `pdf_ingest._detect_source`. -/
def ofacSignals : List (List Char) :=
  [strL "office of foreign assets control",
   strL "ofac",
   strL "sanctions program and country information",
   strL "frequently asked questions"]

/-- Count of FATF signals contained in the lowercased text
(Python `s in t` substring test). -/
def fatfHitCount (text : List Char) : Nat :=
  (fatfSignals.filter (fun s => containsSub s (text.map Char.toLower))).length

/-- Count of OFAC signals contained in the lowercased text. -/
def ofacHitCount (text : List Char) : Nat :=
  (ofacSignals.filter (fun s => containsSub s (text.map Char.toLower))).length

/-- `pdf_ingest._detect_source`: `"fatf"` when `fatf_hits >= ofac_hits`,
else `"ofac"`. -/
def detect_source (text : List Char) : List Char :=
  if ofacHitCount text ≤ fatfHitCount text then strL "fatf" else strL "ofac"

example : detect_source [] = strL "fatf" := by decide
example : count_tokens (strL "aaaa") = 1 := by decide
example : estimate_tokens (strL "aaaa") = 2 := by decide
example : countWords (strL " a bb  c ") = 3 := by decide
example : containsSub (strL "ofac") (strL "the ofac list") = true := by decide

/-- Space or tab (the class `[ \t]` of `_clean_pdf_text`). -/
def isSpTab (c : Char) : Bool := c == ' ' || c == '\t'

/-- Alphanumeric ASCII (the class `[A-Za-z0-9]` of the dehyphenation rule). -/
def isAlnumAscii (c : Char) : Bool :=
  ('A' ≤ c && c ≤ 'Z') || ('a' ≤ c && c ≤ 'z') || ('0' ≤ c && c ≤ '9')

/-- `txt.replace("\r", "\n")`. -/
def replaceCR (l : List Char) : List Char :=
  l.map (fun c => if c = '\r' then '\n' else c)

/-- `re.sub(r"[ \t]+\n", "\n", t)`: a run of spaces/tabs immediately before a
newline is deleted.  `pend` buffers the current (reversed) space/tab run. -/
def stripTrailWSAux : List Char → List Char → List Char
  | pend, [] => pend.reverse
  | pend, c :: r =>
    if isSpTab c then stripTrailWSAux (c :: pend) r
    else if c = '\n' then '\n' :: stripTrailWSAux [] r
    else pend.reverse ++ c :: stripTrailWSAux [] r

/-- `re.sub(r"[ \t]+\n", "\n", t)`. -/
def stripTrailWS (l : List Char) : List Char := stripTrailWSAux [] l

/-- `re.sub(r"\n{3,}", "\n\n", t)`: `pend` counts buffered newlines; a run of
three or more collapses to exactly two. -/
def collapseNLAux : Nat → List Char → List Char
  | pend, [] => List.replicate (if 3 ≤ pend then 2 else pend) '\n'
  | pend, c :: r =>
    if c = '\n' then collapseNLAux (pend + 1) r
    else List.replicate (if 3 ≤ pend then 2 else pend) '\n' ++ c :: collapseNLAux 0 r

/-- `re.sub(r"\n{3,}", "\n\n", t)`. -/
def collapseNL (l : List Char) : List Char := collapseNLAux 0 l

/-- `re.sub(r"(?m)([A-Za-z0-9])-\n([A-Za-z0-9])", r"\1\2", t)`: left-to-right,
non-overlapping; scanning resumes after the second letter of a match. -/
def dehyphenate : List Char → List Char
  | a :: '-' :: '\n' :: b :: r =>
    if isAlnumAscii a && isAlnumAscii b then a :: b :: dehyphenate r
    else a :: dehyphenate ('-' :: '\n' :: b :: r)
  | c :: r => c :: dehyphenate r
  | [] => []

/-- `re.sub(r"[ \t]{2,}", "  ", t)`: a maximal run of two or more spaces/tabs
becomes exactly two spaces; a single space/tab is kept as is.  `pend` buffers
the current (reversed) space/tab run. -/
def collapseSTAux : List Char → List Char → List Char
  | pend, [] => if 2 ≤ pend.length then [' ', ' '] else pend.reverse
  | pend, c :: r =>
    if isSpTab c then collapseSTAux (c :: pend) r
    else (if 2 ≤ pend.length then [' ', ' '] else pend.reverse) ++ c :: collapseSTAux [] r

/-- `re.sub(r"[ \t]{2,}", "  ", t)`. -/
def collapseST (l : List Char) : List Char := collapseSTAux [] l

/-- `pdf_ingest._clean_pdf_text`: the five normalisation passes in source
order. -/
def clean_pdf_text (txt : List Char) : List Char :=
  collapseST (dehyphenate (collapseNL (stripTrailWS (replaceCR txt))))

/-- Whether the text contains two adjacent space/tab characters. -/
def hasDoubleST : List Char → Bool
  | a :: b :: r => (isSpTab a && isSpTab b) || hasDoubleST (b :: r)
  | _ => false

/-- Whether the text contains three adjacent space/tab characters. -/
def hasTripleST : List Char → Bool
  | a :: b :: c :: r => (isSpTab a && isSpTab b && isSpTab c) || hasTripleST (b :: c :: r)
  | _ => false

example : clean_pdf_text (strL "a   b") = strL "a  b" := by decide
example : clean_pdf_text (strL "Inter-\nnational  sanctions") = strL "International  sanctions" := by decide
example : clean_pdf_text (strL "x\n\n\n\ny") = strL "x\n\ny" := by decide
example : clean_pdf_text (strL "a \t\nb\rc") = strL "a\nb\nc" := by decide

/-- Header tuples `(start, heading_end, title)` of `_slice_by_headers`. -/
abbrev Hdr : Type := Nat × Nat × List Char

/-- Comparison used by `headers.sort(key=lambda x: x[0])`. -/
def hdrLe (a b : Hdr) : Prop := a.1 ≤ b.1

instance : DecidableRel hdrLe := fun a b => Nat.decLe a.1 b.1

instance : IsTotal Hdr hdrLe := ⟨fun a b => Nat.le_total a.1 b.1⟩

instance : IsTrans Hdr hdrLe := ⟨fun _ _ _ => Nat.le_trans⟩

/-- The passage built for one header: `f"{title}\n\n{body}".strip()` with
`body = text[e:nxt].strip()`. -/
def headerChunk (text : List Char) (h : Hdr) (nxt : Nat) : List Char :=
  pyStrip (h.2.2 ++ nlnl ++ pyStrip (pySlice text h.2.1 nxt))

/-- One entry per (sorted) header: the header, the next header's start (or
`len(text)`), and the passage text built for it. -/
def headerSlices (text : List Char) : List Hdr → List (Hdr × Nat × List Char)
  | [] => []
  | h :: rest =>
    let nxt := match rest with | h2 :: _ => h2.1 | [] => text.length
    (h, nxt, headerChunk text h nxt) :: headerSlices text rest

/-- `pdf_ingest._slice_by_headers`: sort by start offset (Python's stable
sort, modelled by insertion sort), slice up to the next header, and keep the
non-empty stripped passages. -/
def slice_by_headers (text : List Char) (headers : List Hdr) : List (List Char) :=
  if headers = [] then []
  else ((headerSlices text (List.insertionSort hdrLe headers)).map (fun x => x.2.2)).filter
    (fun c => c ≠ [])

/-- Next window start of `_fallback_chunks`:
`start = end - overlap if end - overlap > start else end`. -/
def fallbackNext (n szPred ov start : Nat) : Nat :=
  let e := min n (start + (szPred + 1))
  if start < e - ov then e - ov else e

/-- Window loop of `_fallback_chunks`; `szPred + 1` is the positive window
size.  The start strictly increases at each iteration, so `n + 1` fuel always
suffices. -/
def fallbackLoop (text : List Char) (szPred ov : Nat) : Nat → Nat → List (List Char)
  | 0, _ => []
  | fuel + 1, start =>
    if start < text.length then
      pySlice text start (min text.length (start + (szPred + 1))) ::
        fallbackLoop text szPred ov fuel (fallbackNext text.length szPred ov start)
    else []

/-- `pdf_ingest._fallback_chunks`: `size <= 0` yields nothing; otherwise the
overlap is clamped to `[0, size-1]` and fixed windows are emitted. -/
def fallback_chunks (text : List Char) (size overlap : Int) : List (List Char) :=
  if size ≤ 0 then []
  else fallbackLoop text (size.toNat - 1) (max 0 (min overlap (size - 1))).toNat
    (text.length + 1) 0

/-- `re.split(r"\n{2,}", s)`: `cur` is the reversed current piece, `pend`
counts buffered newlines (a run of two or more separates pieces). -/
def splitParasAux : List Char → Nat → List Char → List (List Char)
  | cur, pend, [] =>
    if 2 ≤ pend then [cur.reverse, []] else [(List.replicate pend '\n' ++ cur).reverse]
  | cur, pend, c :: r =>
    if c = '\n' then splitParasAux cur (pend + 1) r
    else if 2 ≤ pend then cur.reverse :: splitParasAux [c] 0 r
    else splitParasAux (c :: (List.replicate pend '\n' ++ cur)) 0 r

/-- `re.split(r"\n{2,}", s)`. -/
def splitParas (l : List Char) : List (List Char) := splitParasAux [] 0 l

/-- `re.split(r"(?<=[.!?])\s+", s)`: when the flag is true we are consuming
the whitespace run that follows a sentence terminator. -/
def splitSentsAux : Bool → List Char → List Char → List (List Char)
  | _, cur, [] => [cur.reverse]
  | sk, cur, c :: r =>
    if sk && isPyWS c then splitSentsAux true cur r
    else if (c == '.' || c == '!' || c == '?') &&
        (match r with | d :: _ => isPyWS d | [] => false) then
      (c :: cur).reverse :: splitSentsAux true [] r
    else splitSentsAux false (c :: cur) r

/-- `re.split(r"(?<=[.!?])\s+", s)`. -/
def splitSents (l : List Char) : List (List Char) := splitSentsAux false [] l

/-- The tail after the first occurrence of `"\n\n"`, if any. -/
def findAfterNlNl : List Char → Option (List Char)
  | '\n' :: '\n' :: r => some r
  | _ :: r => findAfterNlNl r
  | [] => none

/-- Python `c.split("\n\n", 1)[-1]`: the part after the first `"\n\n"`, or
the whole string when the separator does not occur. -/
def restAfterNlNl (l : List Char) : List Char := (findAfterNlNl l).getD l

example : splitParas (strL "a\n\n\nb\nc\n\n") = [strL "a", strL "b\nc", []] := by decide
example : splitSents (strL "a. . b") = [strL "a.", strL ".", strL "b"] := by decide
example : splitSents (strL "a. ") = [strL "a.", []] := by decide
example : restAfterNlNl (strL "a\n\n\nb") = strL "\nb" := by decide
example : restAfterNlNl (strL "x") = strL "x" := by decide
example : fallback_chunks (strL "abcdef") 4 2 = [strL "abcd", strL "cdef", strL "ef"] := by decide
example : fallback_chunks (strL "abc") 0 1 = [] := by decide

/-- The candidate piece `f"{title}\n\n{text[i:i+w].strip()}"` of
`_window_split`. -/
def mkPiece (title text : List Char) (i w : Nat) : List Char :=
  title ++ nlnl ++ pyStrip (pySlice text i (i + w))

/-- The inner shrink loop of `_window_split`:
`while count(piece) > max_tokens and window_chars > 200: window_chars = int(window_chars * 0.9)`.
`int(w * 0.9)` is modelled as `9 * w / 10` (floor); the window strictly
shrinks at each iteration, so `w` fuel always suffices. -/
def shrinkGo (tc : List Char → Nat) (title text : List Char) (maxT i : Nat) :
    Nat → Nat → Nat
  | 0, w => w
  | fuel + 1, w =>
    if maxT < tc (mkPiece title text i w) ∧ 200 < w then
      shrinkGo tc title text maxT i fuel (9 * w / 10)
    else w

/-- The shrunken window width after the inner loop of `_window_split`. -/
def shrinkWC (tc : List Char → Nat) (title text : List Char) (maxT i w : Nat) : Nat :=
  shrinkGo tc title text maxT i w w

/-- Outer loop of `_window_split`: emit a piece, advance `i` by the current
window width.  The width stays positive, so `len(text) + 1` fuel always
suffices. -/
def windowLoop (tc : List Char → Nat) (title text : List Char) (maxT : Nat) :
    Nat → Nat → Nat → List (List Char)
  | 0, _, _ => []
  | fuel + 1, i, w =>
    if i < text.length then
      let w1 := shrinkWC tc title text maxT i w
      mkPiece title text i w1 :: windowLoop tc title text maxT fuel (i + w1) w1
    else []

/-- `pdf_ingest._window_split`, parametrised by the token counter `tc`. -/
def window_split (tc : List Char → Nat) (title text : List Char) (maxT : Nat) :
    List (List Char) :=
  let titleTok := tc title + 1
  let budget := max 200 (maxT - titleTok)
  windowLoop tc title text maxT (text.length + 1) 0 (max 800 (budget * 4))

/-- `pdf_ingest._split_to_token_budget`, parametrised by the token counter
`tc` (`_count_tokens` in the source).  The paragraph and sentence loops are
the two `for` loops of the source, as left folds; the trailing fold is the
final filtering loop over `chunks`. -/
def split_to_token_budget (tc : List Char → Nat) (title body : List Char) (maxT : Nat) :
    List (List Char) :=
  let full := if body = [] then pyStrip title else pyStrip (title ++ nlnl ++ body)
  if tc full ≤ maxT then [full]
  else
    let prelude := pyStrip title
    let pTok := tc prelude + 1
    let paras := ((splitParas body).map pyStrip).filter (fun p => p ≠ [])
    let joinCur := fun (cur : List (List Char)) => pyStrip (List.intercalate nlL cur)
    let sentText := fun (buf : List (List Char)) =>
      pyStrip (List.intercalate nlL [prelude, [], pyStrip (List.intercalate [' '] buf)])
    let innerStep := fun (ist : List (List Char) × List (List Char) × Nat) (s : List Char) =>
      let stok := tc s
      if pTok + ist.2.2 + stok ≤ maxT then (ist.1, ist.2.1 ++ [s], ist.2.2 + stok)
      else
        let t := sentText ist.2.1
        ((if t = [] then ist.1 else ist.1 ++ [t]), [s], stok)
    let step := fun (st : List (List Char) × List (List Char) × Nat) (para : List Char) =>
      let ptok := tc para
      if maxT < st.2.2 + ptok then
        let st1 :=
          if pTok < st.2.2 then
            let t := joinCur st.2.1
            ((if t = [] then st.1 else st.1 ++ [t]), ([prelude, []] : List (List Char)), pTok)
          else st
        let r2 := (splitSents para).foldl innerStep (st1.1, ([] : List (List Char)), 0)
        let chunks3 :=
          if r2.2.1 = [] then r2.1
          else
            let t := sentText r2.2.1
            if t = [] then r2.1 else r2.1 ++ [t]
        (chunks3, st1.2.1, st1.2.2)
      else (st.1, st.2.1 ++ [para], st.2.2 + ptok)
    let fin := paras.foldl step (([] : List (List Char)), ([prelude, []] : List (List Char)), pTok)
    let last := joinCur fin.2.1
    let chunksL := if last ≠ [] ∧ pTok < tc last then fin.1 ++ [last] else fin.1
    chunksL.foldl
      (fun out c =>
        if tc c ≤ maxT then out ++ [c]
        else out ++ window_split tc prelude (restAfterNlNl c) maxT) []

example : split_to_token_budget count_tokens (strL "T") (strL "b") 100 = [strL "T\n\nb"] := by
  decide
example :
    ¬ ∀ c ∈ split_to_token_budget count_tokens (List.replicate 30 'T') (strL "b") 2,
      count_tokens c ≤ 2 := by decide

/-- A record of `corpus_chunks.jsonl` as consumed by
`embed_and_index.main`. -/
structure ChunkRec where
  doc : List Char
  chunkId : Nat
  text : List Char
deriving DecidableEq

/-- A metadata entry `(doc, chunk_id)` as written to
`embeddings_meta.jsonl`. -/
abbrev MetaRec : Type := List Char × Nat

/-- The metadata entry built for a record. -/
def mkMeta (r : ChunkRec) : MetaRec := (r.doc, r.chunkId)

/-- Abort causes of `embed_and_index.main`: a failing embedding-service
call, the `res[0]` lookup on an empty response, or the fatal empty-corpus
check before persisting. -/
inductive BuildErr where
  | embedFail
  | indexErr
  | emptyCorpus
deriving DecidableEq

/-- Loop state of `embed_and_index.main`: accumulated embeddings and
metadata, plus the pending batch. -/
structure BState (V : Type) where
  embs : List V
  meta : List MetaRec
  batchT : List (List Char)
  batchM : List MetaRec
  batchTok : Nat
deriving DecidableEq

/-- Initial state (empty accumulators, empty batch). -/
def initB {V : Type} : BState V := ⟨[], [], [], [], 0⟩

/-- `flush()`: embed the pending batch and append `zip(batch_meta, res)`
pairwise to the accumulators.  A service failure propagates. -/
def flushB {V : Type} (ge : List (List Char) → Except BuildErr (List V))
    (st : BState V) : Except BuildErr (BState V) :=
  if st.batchT = [] then .ok st
  else
    match ge st.batchT with
    | .error e => .error e
    | .ok res =>
      .ok { embs := st.embs ++ (st.batchM.zip res).map Prod.snd,
            meta := st.meta ++ (st.batchM.zip res).map Prod.fst,
            batchT := [], batchM := [], batchTok := 0 }

/-- One iteration of the record loop of `embed_and_index.main`, with
`REQUEST_TOKEN_BUDGET = 18000` and `BATCH_SIZE = 32`. -/
def stepB {V : Type} (ge : List (List Char) → Except BuildErr (List V))
    (st : BState V) (r : ChunkRec) : Except BuildErr (BState V) :=
  let tks := estimate_tokens r.text
  if 18000 < tks then
    match (if st.batchT = [] then .ok st else flushB ge st) with
    | .error e => .error e
    | .ok st1 =>
      match ge [r.text] with
      | .error e => .error e
      | .ok [] => .error .indexErr
      | .ok (v :: _) =>
        .ok { st1 with embs := st1.embs ++ [v], meta := st1.meta ++ [mkMeta r] }
  else
    match (if 18000 < st.batchTok + tks ∨ 32 ≤ st.batchT.length then flushB ge st
           else .ok st) with
    | .error e => .error e
    | .ok st1 =>
      .ok { st1 with batchT := st1.batchT ++ [r.text],
                     batchM := st1.batchM ++ [mkMeta r],
                     batchTok := st1.batchTok + tks }

/-- The record loop of `embed_and_index.main`. -/
def runSteps {V : Type} (ge : List (List Char) → Except BuildErr (List V)) :
    BState V → List ChunkRec → Except BuildErr (BState V)
  | st, [] => .ok st
  | st, r :: rs =>
    match stepB ge st r with
    | .error e => .error e
    | .ok st1 => runSteps ge st1 rs

/-- `embed_and_index.main` up to the empty-corpus check: loop over the
records, then the final `flush()`. -/
def runBuild {V : Type} (ge : List (List Char) → Except BuildErr (List V))
    (records : List ChunkRec) : Except BuildErr (List V × List MetaRec) :=
  match runSteps ge initB records with
  | .error e => .error e
  | .ok st =>
    match flushB ge st with
    | .error e => .error e
    | .ok st2 => .ok (st2.embs, st2.meta)

/-- The artifact contents persisted on success: the vector rows
(`embeddings.npy`), and the metadata lines (`embeddings_meta.jsonl`, whose
order also gives the FAISS row order via `index.add(vecs)`). -/
def buildArtifacts {V : Type} (ge : List (List Char) → Except BuildErr (List V))
    (records : List ChunkRec) : Except BuildErr (List V × List MetaRec) :=
  match runBuild ge records with
  | .error e => .error e
  | .ok (embs, meta) => if embs.isEmpty then .error .emptyCorpus else .ok (embs, meta)

/-- The three artifact files written at the end of
`embed_and_index.main`. -/
inductive BuildFile where
  | vecsFile
  | metaFile
  | indexFile
deriving DecidableEq

/-- Write trace of `embed_and_index.main`: which artifact files get written,
and the abort cause if the build fails.  All writes happen after the loop
and the empty-corpus check, in source order. -/
def buildTrace {V : Type} (ge : List (List Char) → Except BuildErr (List V))
    (records : List ChunkRec) : List BuildFile × Option BuildErr :=
  match buildArtifacts ge records with
  | .error e => ([], some e)
  | .ok _ => ([.vecsFile, .metaFile, .indexFile], none)

example :
    runBuild (V := Nat) (fun ts => .ok (ts.map (fun t => t.length)))
      [⟨strL "d", 0, strL "abc"⟩, ⟨strL "d", 1, strL "xy"⟩] =
      .ok ([3, 2], [(strL "d", 0), (strL "d", 1)]) := by rfl
example :
    buildTrace (V := Nat) (fun _ => .error .embedFail) [⟨strL "d", 0, strL "abc"⟩] =
      ([], some .embedFail) := by rfl
example : buildTrace (V := Nat) (fun ts => .ok (ts.map (fun t => t.length))) [] =
    ([], some .emptyCorpus) := by rfl

/-- Python list indexing `l[i]`: nonnegative indices from the front,
negative indices wrap from the back, out-of-range raises (here: `none`). -/
def pyGet {α : Type} (l : List α) (i : Int) : Option α :=
  if 0 ≤ i then l[i.toNat]?
  else if 0 ≤ (l.length : Int) + i then l[((l.length : Int) + i).toNat]?
  else none

/-- The hit loop of `query.retrieve`: `for i in idxs[0]: hits.append(meta[i])`.
Any raised `IndexError` propagates (`none`). -/
def pyGetMany {α : Type} (l : List α) (idxs : List Int) : Option (List α) :=
  idxs.mapM (pyGet l)

/-- Last-binding association lookup, as for a Python dict built by
overwriting inserts. -/
def lookupLast {κ α : Type} [DecidableEq κ] (xs : List (κ × α)) (k : κ) : Option α :=
  (xs.reverse.find? (fun p => p.1 = k)).map Prod.snd

/-- The four artifacts fetched by a retrieval call in `query.py`:
`load_index` reads the first three, the context lookup reads the corpus. -/
inductive RagFile where
  | embeddings
  | faissIndex
  | metaJsonl
  | corpusChunks
deriving DecidableEq

/-- On-disk artifact state seen by `query.load_index` / `query.retrieve`.
`V` is the type of the vector matrix, `I` the FAISS index type; both are
opaque to the control flow being verified. -/
structure RagStore (V I : Type) where
  vecsFile : V
  indexFile : I
  metaFile : List MetaRec
  corpusFile : List (MetaRec × List Char)

/-- `query.load_index`: parse the three index artifacts, recording the
fetches.  There is no caching state: every call re-reads all three. -/
def load_index_q {V I : Type} (st : RagStore V I) :
    (V × I × List MetaRec) × List RagFile :=
  ((st.vecsFile, st.indexFile, st.metaFile),
   [.embeddings, .faissIndex, .metaJsonl])

/-- `query.retrieve`, with the numeric embedding/search pipeline abstracted:
`embedQ` embeds the query (after which `faiss.normalize_L2` is applied to
the numeric vector, a no-op for the control flow), `search` returns the
row ordinals `idxs[0]` of `index.search(qv, k)`.  The second component is
the artifact-fetch trace of the call; the corpus file is only opened after
the `meta[i]` hit loop, so an `IndexError` there (`none`) stops the call
with only the three `load_index` fetches. -/
def retrieveQ {V I E : Type} (search : I → E → Nat → List Int)
    (embedQ : List Char → E) (st : RagStore V I) (q : List Char) (k : Nat) :
    Option (List (List Char)) × List RagFile :=
  let li := load_index_q st
  let idxs := search li.1.2.1 (embedQ q) k
  match pyGetMany li.1.2.2 idxs with
  | none => (none, li.2)
  | some hs =>
    (some (hs.map (fun h => (lookupLast st.corpusFile h).getD [])), li.2 ++ [.corpusChunks])

/-- The concatenated artifact-fetch trace of `n` successive retrieval
calls. -/
def retrieveCallsFetches {V I E : Type} (search : I → E → Nat → List Int)
    (embedQ : List Char → E) (st : RagStore V I) (q : List Char) (k : Nat) :
    Nat → List RagFile
  | 0 => []
  | n + 1 => (retrieveQ search embedQ st q k).2 ++
      retrieveCallsFetches search embedQ st q k n

example : pyGet [10, 20, 30] (-1) = some 30 := by decide
example : pyGet [10, 20, 30] 3 = none := by decide
example : pyGet ([] : List Nat) (-1) = none := by decide
example : pyGetMany [(strL "d", 0)] [(-1 : Int)] = some [(strL "d", 0)] := by decide

lemma natCeil_cast_div (m n : Nat) (hn : 0 < n) :
    ⌈(m : ℚ) / n⌉₊ = (m + (n - 1)) / n := by
  have hn' : (0 : ℚ) < (n : ℚ) := by exact_mod_cast hn
  have hdiv : m + (n - 1) = m + n - 1 := by omega
  rw [hdiv, ← Nat.ceilDiv_eq_add_pred_div]
  apply le_antisymm
  · rw [Nat.ceil_le, div_le_iff₀ hn']
    have h1 : m ≤ n * (m ⌈/⌉ n) := by
      have := le_smul_ceilDiv (a := n) (b := m) hn
      simpa [smul_eq_mul] using this
    calc (m : ℚ) ≤ ((n * (m ⌈/⌉ n) : ℕ) : ℚ) := by exact_mod_cast h1
      _ = (m ⌈/⌉ n : ℕ) * (n : ℚ) := by push_cast; ring
  · rw [ceilDiv_le_iff_le_mul hn]
    have h2 : (m : ℚ) / n ≤ ⌈(m : ℚ) / n⌉₊ := Nat.le_ceil _
    rw [div_le_iff₀ hn'] at h2
    have h3 : (m : ℚ) ≤ ((n * ⌈(m : ℚ) / n⌉₊ : ℕ) : ℚ) := by push_cast; linarith
    exact_mod_cast h3

/-- C6, counterexample: on the four-character word `"aaaa"` the chunker's
fallback counter gives `max(1, 4 // 3) = 1` while the index builder's
fallback estimator gives `max(ceil(1 * 1.33), ceil(4 / 4)) = 2`, so the two
heuristics are not the same function and the spec heuristic is not applied
in the chunker. -/
theorem C6_counterexample :
    count_tokens (strL "aaaa") = 1 ∧ estimate_tokens (strL "aaaa") = 2 ∧
      count_tokens (strL "aaaa") ≠ estimate_tokens (strL "aaaa") := by
  decide

/-- C6, amended: the index builder's fallback `estimate_tokens` does
implement the spec's heuristic `max(ceil(words × 1.33), ceil(chars / 4))`,
but the chunker's fallback `_count_tokens` is the different function
`max(1, chars // 3)`, and the two disagree (e.g. at `"aaaa"`), so one and
the same heuristic is not applied everywhere. -/
theorem C6_two_distinct_fallback_estimators (s : List Char) :
    estimate_tokens s = specHeuristic s ∧
      count_tokens s = max 1 (s.length / 3) ∧
      count_tokens (strL "aaaa") ≠ estimate_tokens (strL "aaaa") := by
  refine ⟨?_, rfl, by decide⟩
  unfold estimate_tokens specHeuristic
  have h1 : ((countWords s : ℚ)) * 1.33 = ((133 * countWords s : ℕ) : ℚ) / 100 := by
    push_cast; ring_nf
  have h2 : ⌈((133 * countWords s : ℕ) : ℚ) / 100⌉₊ = (133 * countWords s + 99) / 100 :=
    natCeil_cast_div _ 100 (by norm_num)
  have h3 : ⌈(s.length : ℚ) / 4⌉₊ = (s.length + 3) / 4 :=
    natCeil_cast_div _ 4 (by norm_num)
  rw [h1, h2, h3]

/-- C5, counterexample: on the empty text both signal counts are `0`, yet
`_detect_source` returns `"fatf"` (the recommendation class), not the FAQ
class `"ofac"` — ties do not resolve to the FAQ class. -/
theorem C5_counterexample :
    fatfHitCount [] = ofacHitCount [] ∧ detect_source [] ≠ strL "ofac" ∧
      detect_source [] = strL "fatf" := by
  decide

/-- C5, amended: `_detect_source` returns the FAQ class `"ofac"` exactly
when the OFAC signal count strictly exceeds the FATF signal count, and it
returns the recommendation class `"fatf"` exactly when `fatf_hits >=
ofac_hits` — so ties (including empty input) resolve to `"fatf"`, not to
the FAQ class. -/
theorem C5_tie_resolves_to_fatf (t : List Char) :
    (detect_source t = strL "ofac" ↔ fatfHitCount t < ofacHitCount t) ∧
      (detect_source t = strL "fatf" ↔ ofacHitCount t ≤ fatfHitCount t) := by
  have hne : strL "fatf" ≠ strL "ofac" := by decide
  unfold detect_source
  by_cases h : ofacHitCount t ≤ fatfHitCount t
  · rw [if_pos h]
    exact ⟨⟨fun hh => absurd hh hne, fun hlt => absurd hlt (not_lt.mpr h)⟩,
           ⟨fun _ => h, fun _ => rfl⟩⟩
  · rw [if_neg h]
    exact ⟨⟨fun _ => by omega, fun _ => rfl⟩,
           ⟨fun hh => absurd hh.symm hne, fun hle => absurd hle h⟩⟩

lemma stripTrailWSAux_length (l : List Char) :
    ∀ pend, (stripTrailWSAux pend l).length ≤ pend.length + l.length := by
  induction l with
  | nil => intro pend; simp [stripTrailWSAux]
  | cons c r IH =>
    intro pend
    unfold stripTrailWSAux
    by_cases h1 : isSpTab c
    · simp only [h1, if_true]
      have := IH (c :: pend)
      simp at this ⊢; omega
    · simp only [h1, Bool.false_eq_true, if_false]
      by_cases h2 : c = '\n'
      · simp only [h2, if_true]
        have := IH []
        simp at this ⊢; omega
      · simp only [h2, if_false]
        have := IH []
        simp at this ⊢; omega

lemma collapseNLAux_length (l : List Char) :
    ∀ pend, (collapseNLAux pend l).length ≤ pend + l.length := by
  induction l with
  | nil => intro pend; simp [collapseNLAux]; split <;> omega
  | cons c r IH =>
    intro pend
    unfold collapseNLAux
    by_cases h1 : c = '\n'
    · simp only [h1, if_true]
      have := IH (pend + 1)
      simp at this ⊢; omega
    · simp only [h1, if_false]
      have := IH 0
      simp at this ⊢; split <;> omega


lemma dehyphenate_eq_catchall (c : Char) (r : List Char)
    (h : ∀ (b : Char) (r1 : List Char), r = '-' :: '\n' :: b :: r1 → False) :
    dehyphenate (c :: r) = c :: dehyphenate r := by
  conv_lhs => rw [dehyphenate.eq_def]
  split
  · next b r1 heq =>
    rw [List.cons.injEq] at heq
    exact (h b r1 heq.2).elim
  · next c2 r2 hne h2 =>
    rw [List.cons.injEq] at h2
    rw [h2.1, h2.2]
  · next heq => exact absurd heq (by simp)

lemma dehyphenate_length (l : List Char) : (dehyphenate l).length ≤ l.length := by
  induction l using dehyphenate.induct with
  | case1 a b r h ih => simp [dehyphenate, h]; omega
  | case2 a b r h ih => simp [dehyphenate, h] at ih ⊢; omega
  | case3 c r h ih => rw [dehyphenate_eq_catchall c r h]; simp; omega
  | case4 => simp [dehyphenate]

lemma collapseSTAux_length (l : List Char) :
    ∀ pend, (collapseSTAux pend l).length ≤ pend.length + l.length := by
  induction l with
  | nil => intro pend; simp [collapseSTAux]; split <;> simp <;> omega
  | cons c r IH =>
    intro pend
    unfold collapseSTAux
    by_cases h1 : isSpTab c
    · simp only [h1, if_true]
      have := IH (c :: pend)
      simp at this ⊢; omega
    · simp only [h1, Bool.false_eq_true, if_false]
      have := IH []
      simp at this ⊢; split <;> simp <;> omega

lemma tripleST_cons (c : Char) (T : List Char) (hc : isSpTab c = false)
    (hT : hasTripleST T = false) : hasTripleST (c :: T) = false := by
  match T with
  | [] => rfl
  | [t] => rfl
  | t1 :: t2 :: T2 =>
    simp only [hasTripleST, hc, Bool.false_and, Bool.false_or]
    exact hT

lemma tripleST_cons2 (a c : Char) (T : List Char) (hc : isSpTab c = false)
    (hT : hasTripleST T = false) : hasTripleST (a :: c :: T) = false := by
  match T with
  | [] => rfl
  | t :: T1 =>
    simp only [hasTripleST, hc, Bool.false_and, Bool.and_false, Bool.false_or]
    exact tripleST_cons c (t :: T1) hc hT

lemma tripleST_append2 (E : List Char) (hE : E.length ≤ 2) (c : Char)
    (hc : isSpTab c = false) (T : List Char) (hT : hasTripleST T = false) :
    hasTripleST (E ++ c :: T) = false := by
  match E with
  | [] => simpa using tripleST_cons c T hc hT
  | [a] => simpa using tripleST_cons2 a c T hc hT
  | [a, b] =>
    show hasTripleST (a :: b :: c :: T) = false
    simp only [hasTripleST, hc, Bool.and_false, Bool.false_and, Bool.false_or]
    exact tripleST_cons2 b c T hc hT
  | a :: b :: d :: E2 => simp at hE

lemma collapseSTAux_no_triple (l : List Char) :
    ∀ pend, hasTripleST (collapseSTAux pend l) = false := by
  induction l with
  | nil =>
    intro pend
    unfold collapseSTAux
    by_cases h : 2 ≤ pend.length
    · simp only [h, if_true]; decide
    · simp only [h, if_false]
      match pend, h with
      | [], _ => rfl
      | [a], _ => rfl
      | a :: b :: r, h => exact absurd (by simp) h
  | cons c r IH =>
    intro pend
    by_cases hst : isSpTab c = true
    · simp only [collapseSTAux, hst, if_true]
      exact IH (c :: pend)
    · have hst' : isSpTab c = false := by revert hst; cases isSpTab c <;> simp
      simp only [collapseSTAux, hst', Bool.false_eq_true, if_false]
      refine tripleST_append2 _ ?_ c hst' _ (IH [])
      split <;> simp <;> omega

/-- C9, counterexample: on input `"a   b"` the run of three spaces is
replaced by `"  "` (two spaces, the literal replacement string of
`re.sub(r"[ \t]{2,}", "  ", t)`), so the normalised output still contains
two adjacent space characters — runs are not collapsed to a single
separator. -/
theorem C9_counterexample :
    clean_pdf_text (strL "a   b") = strL "a  b" ∧
      hasDoubleST (clean_pdf_text (strL "a   b")) = true := by
  decide

/-- C9, amended: `_clean_pdf_text` collapses each run of two or more
spaces/tabs to exactly two spaces — so the output never contains three
adjacent spaces/tabs, though it may contain two — and the output is never
longer than the input; the function is total. -/
theorem C9_normalize_bounded (txt : List Char) :
    hasTripleST (clean_pdf_text txt) = false ∧
      (clean_pdf_text txt).length ≤ txt.length := by
  constructor
  · exact collapseSTAux_no_triple _ []
  · unfold clean_pdf_text collapseST collapseNL stripTrailWS
    have h1 : (replaceCR txt).length = txt.length := by simp [replaceCR]
    have h2 := stripTrailWSAux_length (replaceCR txt) []
    have h3 := collapseNLAux_length (stripTrailWSAux [] (replaceCR txt)) 0
    have h4 := dehyphenate_length (collapseNLAux 0 (stripTrailWSAux [] (replaceCR txt)))
    have h5 := collapseSTAux_length
      (dehyphenate (collapseNLAux 0 (stripTrailWSAux [] (replaceCR txt)))) []
    simp at h2 h3 h5
    omega

lemma pySlice_length (l : List Char) (a b : Nat) :
    (pySlice l a b).length = min b l.length - a := by
  simp [pySlice]

lemma fallbackLoop_chunk_length (text : List Char) (szPred ov : Nat) :
    ∀ (fuel start : Nat) (c : List Char), c ∈ fallbackLoop text szPred ov fuel start →
      c.length ≤ szPred + 1 := by
  intro fuel
  induction fuel with
  | zero => intro start c hc; simp [fallbackLoop] at hc
  | succ f IH =>
    intro start c hc
    unfold fallbackLoop at hc
    by_cases h : start < text.length
    · simp only [h, if_true, List.mem_cons] at hc
      rcases hc with hc | hc
      · rw [hc, pySlice_length]; omega
      · exact IH _ c hc
    · simp [h] at hc

/-- C8: the fixed-window fallback chunker returns nothing when `size <= 0`;
otherwise (`overlap` clamped into `[0, size-1]`) every emitted chunk has at
most `size` characters, and from any position strictly inside the text the
next window start is strictly larger — forward progress on every iteration,
also when `overlap = size - 1`, so the loop terminates. -/
theorem C8_fallback_chunks_progress (text : List Char) (size overlap : Int) :
    (size ≤ 0 → fallback_chunks text size overlap = []) ∧
      (∀ c ∈ fallback_chunks text size overlap, (c.length : Int) ≤ size) ∧
      (∀ start : Nat, start < text.length →
        start < fallbackNext text.length (size.toNat - 1)
          (max 0 (min overlap (size - 1))).toNat start) := by
  refine ⟨fun h => by simp [fallback_chunks, h], ?_, ?_⟩
  · intro c hc
    by_cases h : size ≤ 0
    · simp [fallback_chunks, h] at hc
    · simp only [fallback_chunks, h, if_false] at hc
      have h1 := fallbackLoop_chunk_length text (size.toNat - 1)
        (max 0 (min overlap (size - 1))).toNat (text.length + 1) 0 c hc
      have h2 : 0 < size := by omega
      have h3 : size.toNat - 1 + 1 = size.toNat := by omega
      have h4 : (size.toNat : Int) = size := by omega
      omega
  · intro start hs
    unfold fallbackNext
    dsimp only
    split <;> omega

/-- C8 witness: on `"abcdef"` with `size = 4`, `overlap = 2`, the first
chunk `"abcd"` is bounded by the window size. -/
theorem C8_witness : ((strL "abcd").length : Int) ≤ 4 :=
  (C8_fallback_chunks_progress (strL "abcdef") 4 2).2.1 (strL "abcd") (by decide)

lemma length_dropWhile_le (p : Char → Bool) (l : List Char) :
    (l.dropWhile p).length ≤ l.length := by
  induction l with
  | nil => simp
  | cons c r IH =>
    unfold List.dropWhile
    split
    · simp only [List.length_cons]; omega
    · simp

lemma pyStrip_length_le (l : List Char) : (pyStrip l).length ≤ l.length := by
  unfold pyStrip
  have h1 := length_dropWhile_le isPyWS l
  have h2 := length_dropWhile_le isPyWS (l.dropWhile isPyWS).reverse
  simp at h2 ⊢
  omega

lemma shrinkGo_exit (tc : List Char → Nat) (title text : List Char) (maxT i : Nat) :
    ∀ fuel w, w ≤ fuel →
      tc (mkPiece title text i (shrinkGo tc title text maxT i fuel w)) ≤ maxT ∨
        shrinkGo tc title text maxT i fuel w ≤ 200 := by
  intro fuel
  induction fuel with
  | zero => intro w hw; right; unfold shrinkGo; omega
  | succ f IH =>
    intro w hw
    unfold shrinkGo
    by_cases h : maxT < tc (mkPiece title text i w) ∧ 200 < w
    · rw [if_pos h]
      exact IH (9 * w / 10) (by omega)
    · rw [if_neg h]
      rcases Nat.lt_or_ge maxT (tc (mkPiece title text i w)) with h1 | h1
      · right; omega
      · left; omega

lemma windowLoop_bound (tc : List Char → Nat) (title text : List Char) (maxT : Nat)
    (H : ∀ s : List Char, s.length ≤ 200 → tc (title ++ nlnl ++ s) ≤ maxT) :
    ∀ (fuel i w : Nat) (p : List Char),
      p ∈ windowLoop tc title text maxT fuel i w → tc p ≤ maxT := by
  intro fuel
  induction fuel with
  | zero => intro i w p hp; simp [windowLoop] at hp
  | succ f IH =>
    intro i w p hp
    unfold windowLoop at hp
    by_cases h : i < text.length
    · simp only [h, if_true, List.mem_cons] at hp
      rcases hp with hp | hp
      · subst hp
        rcases shrinkGo_exit tc title text maxT i w w le_rfl with h1 | h1
        · exact h1
        · apply H
          have h2 := pyStrip_length_le (pySlice text i (i + shrinkWC tc title text maxT i w))
          rw [pySlice_length] at h2
          have h3 : shrinkWC tc title text maxT i w = shrinkGo tc title text maxT i w w := rfl
          omega
      · exact IH _ _ p hp
    · simp [h] at hp

lemma window_split_bound (tc : List Char → Nat) (title text : List Char) (maxT : Nat)
    (H : ∀ s : List Char, s.length ≤ 200 → tc (title ++ nlnl ++ s) ≤ maxT) :
    ∀ p ∈ window_split tc title text maxT, tc p ≤ maxT := by
  intro p hp
  exact windowLoop_bound tc title text maxT H _ _ _ p hp

lemma budget_fold_bound (tc : List Char → Nat) (prelude : List Char) (maxT : Nat)
    (H : ∀ s : List Char, s.length ≤ 200 → tc (prelude ++ nlnl ++ s) ≤ maxT) :
    ∀ (chunks out0 : List (List Char)), (∀ x ∈ out0, tc x ≤ maxT) →
      ∀ c ∈ chunks.foldl
        (fun out c => if tc c ≤ maxT then out ++ [c]
          else out ++ window_split tc prelude (restAfterNlNl c) maxT) out0,
        tc c ≤ maxT := by
  intro chunks
  induction chunks with
  | nil => intro out0 h0 c hc; exact h0 c hc
  | cons ch chs IH =>
    intro out0 h0 c hc
    simp only [List.foldl_cons] at hc
    refine IH _ ?_ c hc
    intro x hx
    by_cases h : tc ch ≤ maxT
    · rw [if_pos h] at hx
      rcases List.mem_append.mp hx with hx | hx
      · exact h0 x hx
      · simp at hx; subst hx; exact h
    · rw [if_neg h] at hx
      rcases List.mem_append.mp hx with hx | hx
      · exact h0 x hx
      · exact window_split_bound tc prelude (restAfterNlNl ch) maxT H x hx

/-- C1, counterexample: with the configured fallback `_count_tokens`, a
30-character title, the one-character body `"b"` and the positive budget
`maxTokens = 2`, the list returned by `_split_to_token_budget` contains
strings whose token count exceeds the budget: `_window_split` stops
shrinking its window at 200 characters, so the title prefix alone overruns
the ceiling. -/
theorem C1_counterexample :
    ¬ ∀ c ∈ split_to_token_budget count_tokens (List.replicate 30 'T') (strL "b") 2,
      count_tokens c ≤ 2 := by
  decide

/-- C1, amended: every string returned by `_split_to_token_budget` (with the
configured fallback `_count_tokens`) has token count at most `maxTokens`
PROVIDED the stripped title together with any window of at most 200
characters fits the budget (`max(1, (len(strip(title)) + 202) // 3) <=
maxTokens`); without this proviso `_window_split` can emit over-budget
pieces once its window has shrunk to 200 characters, and `chunk_text`
inherits the same guarantee and limitation chunk by chunk. -/
theorem C1_split_respects_budget (title body : List Char) (maxT : Nat) (c : List Char)
    (hbudget : max 1 (((pyStrip title).length + 202) / 3) ≤ maxT)
    (hc : c ∈ split_to_token_budget count_tokens title body maxT) :
    count_tokens c ≤ maxT := by
  have H : ∀ s : List Char, s.length ≤ 200 →
      count_tokens (pyStrip title ++ nlnl ++ s) ≤ maxT := by
    intro s hs
    unfold count_tokens
    simp only [List.length_append]
    have hnl : nlnl.length = 2 := by decide
    omega
  unfold split_to_token_budget at hc
  by_cases hfull : count_tokens (if body = [] then pyStrip title
      else pyStrip (title ++ nlnl ++ body)) ≤ maxT
  · rw [if_pos hfull] at hc
    simp only [List.mem_singleton] at hc
    subst hc
    exact hfull
  · rw [if_neg hfull] at hc
    exact budget_fold_bound count_tokens (pyStrip title) maxT H _ _ (by simp) c hc

/-- C1 witness: title `"T"`, body `"b"`, budget `100` satisfy the proviso,
and the single returned chunk `"T\n\nb"` is within budget. -/
theorem C1_witness :
    max 1 (((pyStrip (strL "T")).length + 202) / 3) ≤ 100 ∧
      count_tokens (strL "T\n\nb") ≤ 100 :=
  ⟨by decide,
   C1_split_respects_budget (strL "T") (strL "b") 100 (strL "T\n\nb") (by decide) (by decide)⟩

/-- Loop invariant of `embed_and_index.main`: committed rows plus the
pending batch equal, in order, the embeddings and metadata of the records
processed so far. -/
def BuildInv {V : Type} (E : List Char → V) (done : List ChunkRec) (st : BState V) : Prop :=
  st.embs ++ st.batchT.map E = done.map (fun r => E r.text) ∧
    st.meta ++ st.batchM = done.map mkMeta ∧
    st.batchM.length = st.batchT.length

lemma flushB_good {V : Type} (E : List Char → V) (ge : List (List Char) → Except BuildErr (List V))
    (hge : ∀ ts, ge ts = .ok (ts.map E)) (st : BState V)
    (hlen : st.batchM.length = st.batchT.length) :
    ∃ st1, flushB ge st = .ok st1 ∧ st1.embs = st.embs ++ st.batchT.map E ∧
      st1.meta = st.meta ++ st.batchM ∧ st1.batchT = [] ∧ st1.batchM = [] := by
  by_cases hbt : st.batchT = []
  · have hbm : st.batchM = [] := by
      rw [hbt] at hlen; exact List.length_eq_zero.mp hlen
    refine ⟨st, by simp [flushB, hbt], by simp [hbt], by simp [hbm], hbt, hbm⟩
  · refine ⟨_, by rw [flushB, if_neg hbt, hge st.batchT], ?_, ?_, rfl, rfl⟩
    · simp only []
      rw [List.map_snd_zip]
      rw [List.length_map, hlen]
    · simp only []
      rw [List.map_fst_zip]
      rw [List.length_map, hlen]

lemma preflushB_good {V : Type} (E : List Char → V)
    (ge : List (List Char) → Except BuildErr (List V))
    (hge : ∀ ts, ge ts = .ok (ts.map E)) (st : BState V)
    (hlen : st.batchM.length = st.batchT.length) :
    ∃ st1, (if st.batchT = [] then Except.ok st else flushB ge st) = .ok st1 ∧
      st1.embs = st.embs ++ st.batchT.map E ∧
      st1.meta = st.meta ++ st.batchM ∧ st1.batchT = [] ∧ st1.batchM = [] := by
  by_cases hbt : st.batchT = []
  · have hbm : st.batchM = [] := by
      rw [hbt] at hlen; exact List.length_eq_zero.mp hlen
    exact ⟨st, by simp [hbt], by simp [hbt], by simp [hbm], hbt, hbm⟩
  · rw [if_neg hbt]
    exact flushB_good E ge hge st hlen

lemma stepB_good {V : Type} (E : List Char → V)
    (ge : List (List Char) → Except BuildErr (List V))
    (hge : ∀ ts, ge ts = .ok (ts.map E)) (st : BState V) (r : ChunkRec)
    (done : List ChunkRec) (hInv : BuildInv E done st) :
    ∃ st1, stepB ge st r = .ok st1 ∧ BuildInv E (done ++ [r]) st1 := by
  obtain ⟨h1, h2, h3⟩ := hInv
  unfold stepB
  by_cases hbig : 18000 < estimate_tokens r.text
  · rw [if_pos hbig]
    obtain ⟨st1, hfl, he, hm, hbt, hbm⟩ := preflushB_good E ge hge st h3
    rw [hfl]
    have hg : ge [r.text] = .ok [E r.text] := by rw [hge [r.text]]; rfl
    rw [hg]
    refine ⟨_, rfl, ?_, ?_, by simp [hbt, hbm]⟩
    · simp only [he, hbt, List.map_nil, List.append_nil, List.map_append]
      rw [← h1, List.append_assoc]
      simp
    · simp only [hm, hbm, List.append_nil, List.map_append]
      rw [← h2, List.append_assoc]
      simp
  · rw [if_neg hbig]
    by_cases hcond : 18000 < st.batchTok + estimate_tokens r.text ∨ 32 ≤ st.batchT.length
    · rw [if_pos hcond]
      obtain ⟨st1, hfl, he, hm, hbt, hbm⟩ := flushB_good E ge hge st h3
      rw [hfl]
      refine ⟨_, rfl, ?_, ?_, by simp [hbt, hbm]⟩
      · simp only [he, hbt, List.map_append, List.map_nil, List.map_cons, List.append_nil]
        rw [← h1, List.append_assoc]
        simp
      · simp only [hm, hbm, List.map_append, List.append_nil]
        rw [← h2, List.append_assoc]
        simp
    · rw [if_neg hcond]
      refine ⟨_, rfl, ?_, ?_, by simp [h3]⟩
      · simp only [List.map_append, List.map_cons, List.map_nil]
        rw [← List.append_assoc, h1]
      · simp only [List.map_append]
        rw [← List.append_assoc, h2]
        simp

lemma runSteps_good {V : Type} (E : List Char → V)
    (ge : List (List Char) → Except BuildErr (List V))
    (hge : ∀ ts, ge ts = .ok (ts.map E)) :
    ∀ (records done : List ChunkRec) (st : BState V), BuildInv E done st →
      ∃ stF, runSteps ge st records = .ok stF ∧ BuildInv E (done ++ records) stF := by
  intro records
  induction records with
  | nil => intro done st h; exact ⟨st, rfl, by simpa⟩
  | cons r rs IH =>
    intro done st h
    obtain ⟨st1, hst1, hInv1⟩ := stepB_good E ge hge st r done h
    obtain ⟨stF, hF, hInvF⟩ := IH (done ++ [r]) st1 hInv1
    refine ⟨stF, ?_, by simpa using hInvF⟩
    unfold runSteps
    rw [hst1]
    exact hF

/-- C2: with an embedding service returning exactly one vector per input
string, in input order (`get_embeddings ts = map E ts`), a build over a
non-empty record list persists exactly one vector row and one metadata line
per record, in record order: row `i` is the embedding of record `i`'s text
and metadata line `i` is record `i`'s `(doc, chunk_id)` — so vector count,
metadata count and record count coincide and are ordinally aligned. -/
theorem C2_build_alignment {V : Type} (E : List Char → V)
    (ge : List (List Char) → Except BuildErr (List V))
    (hge : ∀ ts, ge ts = .ok (ts.map E)) (records : List ChunkRec)
    (hne : records ≠ []) :
    buildArtifacts ge records =
        .ok (records.map (fun r => E r.text), records.map mkMeta) ∧
      (records.map (fun r => E r.text)).length = records.length ∧
      (records.map mkMeta).length = records.length := by
  have hInv0 : BuildInv E [] (initB (V := V)) := by
    refine ⟨by simp [initB], by simp [initB], by simp [initB]⟩
  obtain ⟨stF, hF, h1, h2, h3⟩ := by
    have h := runSteps_good E ge hge records [] initB hInv0
    simpa [BuildInv] using h
  obtain ⟨st2, hfl, he, hm, _, _⟩ := flushB_good E ge hge stF h3
  have hemb : st2.embs = records.map (fun r => E r.text) := by rw [he, h1]
  have hmeta : st2.meta = records.map mkMeta := by rw [hm, h2]
  have hrun : runBuild ge records = .ok (st2.embs, st2.meta) := by
    unfold runBuild
    simp only [hF, hfl]
  have hnonnil : st2.embs.isEmpty = false := by
    rw [hemb]
    cases records with
    | nil => exact absurd rfl hne
    | cons a l => rfl
  constructor
  · unfold buildArtifacts
    rw [hrun]
    simp only [hnonnil, Bool.false_eq_true, if_false]
    rw [hemb, hmeta]
  · simp

/-- C2 witness: a concrete two-record build with the length embedding. -/
theorem C2_witness :
    buildArtifacts (V := Nat) (fun ts => .ok (ts.map (fun t => t.length)))
        [⟨strL "d", 0, strL "abc"⟩, ⟨strL "e", 1, strL "wxyz"⟩] =
      .ok ([3, 4], [(strL "d", 0), (strL "e", 1)]) ∧ True := by
  have h := C2_build_alignment (fun t => t.length)
    (fun ts => .ok (ts.map (fun t => t.length))) (fun ts => rfl)
    [⟨strL "d", 0, strL "abc"⟩, ⟨strL "e", 1, strL "wxyz"⟩] (by decide)
  exact ⟨h.1, trivial⟩

lemma buildFails {V : Type} (ge : List (List Char) → Except BuildErr (List V))
    (hfail : ∀ ts, ge ts = .error .embedFail) :
    ∀ (records : List ChunkRec) (st : BState V), st.batchT ≠ [] ∨ records ≠ [] →
      (match runSteps ge st records with
       | .error e => (.error e : Except BuildErr (List V × List MetaRec))
       | .ok st2 =>
         match flushB ge st2 with
         | .error e => .error e
         | .ok st3 => .ok (st3.embs, st3.meta)) = .error .embedFail := by
  intro records
  induction records with
  | nil =>
    intro st h
    have hbt : st.batchT ≠ [] := by
      rcases h with h | h
      · exact h
      · exact absurd rfl h
    simp [runSteps, flushB, hbt, hfail st.batchT]
  | cons r rs IH =>
    intro st _
    unfold runSteps stepB
    by_cases hbig : 18000 < estimate_tokens r.text
    · rw [if_pos hbig]
      by_cases hbt : st.batchT = []
      · rw [if_pos hbt]
        simp [hfail [r.text]]
      · rw [if_neg hbt]
        simp [flushB, hbt, hfail st.batchT]
    · rw [if_neg hbig]
      by_cases hcond : 18000 < st.batchTok + estimate_tokens r.text ∨ 32 ≤ st.batchT.length
      · rw [if_pos hcond]
        by_cases hbt : st.batchT = []
        · simp only [flushB, hbt, if_true]
          exact IH _ (Or.inl (by simp))
        · simp [flushB, hbt, hfail st.batchT]
      · rw [if_neg hcond]
        exact IH _ (Or.inl (by simp))

/-- C7: the index build aborts fatally on an empty corpus; whenever the
build fails (for any cause, including a raising embedding call) NO artifact
file is written, and on success all three are written; in particular with an
always-raising embedding service and a non-empty corpus the error propagates
and nothing is committed. -/
theorem C7_atomic_build {V : Type} (ge : List (List Char) → Except BuildErr (List V))
    (records : List ChunkRec) :
    (records = [] → buildTrace ge records = ([], some .emptyCorpus)) ∧
      ((buildTrace ge records).2.isSome → (buildTrace ge records).1 = []) ∧
      ((buildTrace ge records).2 = none →
        (buildTrace ge records).1 = [.vecsFile, .metaFile, .indexFile]) ∧
      (records ≠ [] → (∀ ts, ge ts = .error .embedFail) →
        buildTrace ge records = ([], some .embedFail)) := by
  refine ⟨?_, ?_, ?_, ?_⟩
  · intro h; subst h; rfl
  · intro h
    unfold buildTrace at h ⊢
    rcases hba : buildArtifacts ge records with e | a
    · rfl
    · rw [hba] at h; simp at h
  · intro h
    unfold buildTrace at h ⊢
    rcases hba : buildArtifacts ge records with e | a
    · rw [hba] at h; simp at h
    · rfl
  · intro hne hfail
    have h := buildFails ge hfail records initB (Or.inr hne)
    unfold buildTrace buildArtifacts
    have hrb : runBuild ge records = .error .embedFail := h
    rw [hrb]

/-- C7 witness: the empty corpus aborts with the fatal empty-corpus error
and no artifact writes. -/
theorem C7_witness :
    buildTrace (V := Nat) (fun ts => .ok (ts.map (fun t => t.length))) [] =
      ([], some .emptyCorpus) :=
  (C7_atomic_build _ []).1 rfl

lemma pyGet_neg_one {α : Type} (l : List α) : pyGet l (-1) = l.getLast? := by
  unfold pyGet
  cases l with
  | nil => rfl
  | cons a r =>
    have h0 : ¬ (0 : Int) ≤ -1 := by omega
    rw [if_neg h0]
    have h1 : (0 : Int) ≤ ((a :: r).length : Int) + (-1) := by
      simp only [List.length_cons]; omega
    rw [if_pos h1]
    have h2 : (((a :: r).length : Int) + (-1)).toNat = (a :: r).length - 1 := by
      simp only [List.length_cons]; omega
    rw [h2, List.getLast?_eq_getElem?]

/-- C3, counterexample: indexing metadata at the FAISS no-match sentinel
`-1` (returned e.g. when `k` exceeds the number of indexed vectors) is NOT
discarded: Python list indexing wraps around, so `meta[-1]` yields the last
metadata entry and `retrieve` emits a context for it — the hit list is
`["c0"]`, not the empty list the claimed discarding would produce. -/
theorem C3_counterexample :
    pyGet [(strL "doc", 0)] (-1) = some (strL "doc", 0) ∧
      (retrieveQ (V := Unit) (I := Unit) (E := Unit) (fun _ _ _ => [-1]) (fun _ => ())
        ⟨(), (), [(strL "doc", 0)], [((strL "doc", 0), strL "c0")]⟩ (strL "q") 5).1 =
        some [strL "c0"] ∧
      (retrieveQ (V := Unit) (I := Unit) (E := Unit) (fun _ _ _ => [-1]) (fun _ => ())
        ⟨(), (), [(strL "doc", 0)], [((strL "doc", 0), strL "c0")]⟩ (strL "q") 5).1 ≠
        some [] := by
  decide

/-- C3, amended: `retrieve` does not filter the search ordinals at all:
every returned ordinal is used directly as a Python list index, so whenever
the sentinel `-1` occurs among the ordinals and the metadata list is
non-empty, the hit list contains the LAST metadata entry — a spurious
wrap-around hit rather than a discarded sentinel. -/
theorem C3_sentinel_not_discarded (meta : List MetaRec) (idxs : List Int)
    (hs : List MetaRec) (m : MetaRec) (hmany : pyGetMany meta idxs = some hs)
    (hneg : (-1 : Int) ∈ idxs) (hlast : meta.getLast? = some m) : m ∈ hs := by
  induction idxs generalizing hs with
  | nil => simp at hneg
  | cons i is IH =>
    rw [pyGetMany, List.mapM_cons] at hmany
    rcases hget : pyGet meta i with _ | a
    · rw [hget] at hmany; simp at hmany
    · rw [hget] at hmany
      rcases hrest : List.mapM (pyGet meta) is with _ | tl
      · rw [hrest] at hmany; simp at hmany
      · rw [hrest] at hmany
        simp at hmany
        subst hmany
        rcases List.mem_cons.mp hneg with hi | hi
        · subst hi
          rw [pyGet_neg_one, hlast] at hget
          simp at hget
          exact List.mem_cons.mpr (Or.inl hget)
        · exact List.mem_cons.mpr (Or.inr (IH tl hrest hi))

/-- C3 witness: a one-entry metadata list with the sentinel ordinal list
`[-1]` produces the last entry as a hit. -/
theorem C3_witness : (strL "doc", 0) ∈ [(strL "doc", 0)] :=
  C3_sentinel_not_discarded [(strL "doc", 0)] [-1] [(strL "doc", 0)] (strL "doc", 0)
    (by decide) (by decide) (by decide)

/-- C4, counterexample: the artifact-fetch trace of a retrieval call is
never empty — in particular a second call within any time window fetches
again (there is no TTL cache in `query.py`), and two calls perform `8`
artifact fetches, not `4`. -/
theorem C4_counterexample :
    (retrieveQ (V := Unit) (I := Unit) (E := Unit) (fun _ _ _ => []) (fun _ => ())
        ⟨(), (), [], []⟩ [] 5).2 ≠ [] ∧
      (retrieveCallsFetches (V := Unit) (I := Unit) (E := Unit) (fun _ _ _ => [])
        (fun _ => ()) ⟨(), (), [], []⟩ [] 5 2).length = 8 := by
  decide

/-- C4, amended: every retrieval call re-fetches and re-parses the
artifacts: `retrieve` calls `load_index` unconditionally and there is no
loaded-state cache, TTL or load lock, so every call starts by re-reading
the three index artifacts, every successfully returning call fetches all
four, and `n` such calls perform exactly `4 * n` artifact fetches. -/
theorem C4_no_cache_every_call_reloads {V I E : Type} (search : I → E → Nat → List Int)
    (embedQ : List Char → E) (st : RagStore V I) (q : List Char) (k n : Nat) :
    ((retrieveQ search embedQ st q k).2.take 3 =
        [RagFile.embeddings, RagFile.faissIndex, RagFile.metaJsonl]) ∧
      ((retrieveQ search embedQ st q k).1.isSome →
        (retrieveQ search embedQ st q k).2 =
          [RagFile.embeddings, RagFile.faissIndex, RagFile.metaJsonl,
           RagFile.corpusChunks]) ∧
      ((retrieveQ search embedQ st q k).1.isSome →
        (retrieveCallsFetches search embedQ st q k n).length = 4 * n) := by
  refine ⟨?_, ?_, ?_⟩
  · unfold retrieveQ load_index_q
    dsimp only
    rcases pyGetMany st.metaFile (search st.indexFile (embedQ q) k) with _ | hs <;> rfl
  · intro h
    unfold retrieveQ load_index_q at h ⊢
    dsimp only at h ⊢
    rcases hm : pyGetMany st.metaFile (search st.indexFile (embedQ q) k) with _ | hs
    · rw [hm] at h; simp at h
    · rfl
  · intro h
    induction n with
    | zero => rfl
    | succ m IH =>
      unfold retrieveCallsFetches
      rw [List.length_append, IH]
      have h4 : (retrieveQ search embedQ st q k).2.length = 4 := by
        unfold retrieveQ load_index_q at h ⊢
        dsimp only at h ⊢
        rcases hm : pyGetMany st.metaFile (search st.indexFile (embedQ q) k) with _ | hs
        · rw [hm] at h; simp at h
        · rfl
      omega

/-- C4 witness: with a search returning no ordinals, every call succeeds
and two calls perform eight artifact fetches. -/
theorem C4_witness :
    (retrieveCallsFetches (V := Unit) (I := Unit) (E := Unit) (fun _ _ _ => [])
      (fun _ => ()) ⟨(), (), [], []⟩ [] 5 2).length = 4 * 2 :=
  (C4_no_cache_every_call_reloads (fun _ _ _ => []) (fun _ => ())
    ⟨(), (), [], []⟩ [] 5 2).2.2 (by decide)

lemma headerSlices_map_fst (text : List Char) (hs : List Hdr) :
    (headerSlices text hs).map (fun x => x.1) = hs := by
  induction hs with
  | nil => rfl
  | cons h rest IH => simp only [headerSlices, List.map_cons, IH]

lemma headerSlices_shape (text : List Char) (hs : List Hdr) :
    ∀ x ∈ headerSlices text hs, x.2.2 = headerChunk text x.1 x.2.1 ∧ x.1 ∈ hs := by
  induction hs with
  | nil => intro x hx; simp [headerSlices] at hx
  | cons h rest IH =>
    intro x hx
    simp only [headerSlices, List.mem_cons] at hx
    rcases hx with hx | hx
    · subst hx
      exact ⟨rfl, List.mem_cons_self _ _⟩
    · obtain ⟨h1, h2⟩ := IH x hx
      exact ⟨h1, List.mem_cons.mpr (Or.inr h2)⟩

/-- C10, counterexample: with `text = ""` and the single header
`(0, 0, "T")` the body slice strips to the empty string, the outer
`.strip()` removes the separator, and the returned passage is the bare
`"T"` — it does NOT begin with its title followed by a blank line. -/
theorem C10_counterexample :
    slice_by_headers [] [(0, 0, strL "T")] = [strL "T"] ∧
      (strL "T").take (strL "T" ++ nlnl).length ≠ strL "T" ++ nlnl := by
  decide

/-- C10, amended: `_slice_by_headers` processes the headers in ascending
order of start offset regardless of input order (the start offsets paired
with emitted passages are non-decreasing); every returned passage is
non-empty and equals `strip(title + "\n\n" + strip(text[e:nxt]))` for its
header `(s, e, title)` (with `nxt` the next sorted start or `len(text)`) —
so when the trimmed body is empty the passage degenerates to the stripped
title alone — and headers whose passage strips to the empty string are
dropped. -/
theorem C10_slice_by_headers_shape (text : List Char) (headers : List Hdr) :
    (slice_by_headers text headers =
      ((headerSlices text (List.insertionSort hdrLe headers)).map (fun x => x.2.2)).filter
        (fun c => c ≠ [])) ∧
      List.Sorted (· ≤ ·)
        ((headerSlices text (List.insertionSort hdrLe headers)).map (fun x => x.1.1)) ∧
      (∀ p ∈ slice_by_headers text headers, p ≠ []) ∧
      (∀ x ∈ headerSlices text (List.insertionSort hdrLe headers),
        x.2.2 = pyStrip (x.1.2.2 ++ nlnl ++ pyStrip (pySlice text x.1.2.1 x.2.1)) ∧
          x.1 ∈ headers) := by
  have heq : slice_by_headers text headers =
      ((headerSlices text (List.insertionSort hdrLe headers)).map (fun x => x.2.2)).filter
        (fun c => c ≠ []) := by
    unfold slice_by_headers
    by_cases h : headers = []
    · subst h; rfl
    · rw [if_neg h]
  refine ⟨heq, ?_, ?_, ?_⟩
  · have hmap : (headerSlices text (List.insertionSort hdrLe headers)).map (fun x => x.1.1) =
        (List.insertionSort hdrLe headers).map (fun h => h.1) := by
      rw [show (fun x : Hdr × Nat × List Char => x.1.1) =
        ((fun h : Hdr => h.1) ∘ (fun x : Hdr × Nat × List Char => x.1)) from rfl]
      rw [← List.map_map, headerSlices_map_fst]
    rw [hmap]
    have hsorted := List.sorted_insertionSort hdrLe headers
    unfold List.Sorted at hsorted ⊢
    rw [List.pairwise_map]
    exact hsorted
  · intro p hp
    rw [heq] at hp
    have := List.of_mem_filter hp
    simpa using this
  · intro x hx
    obtain ⟨h1, h2⟩ := headerSlices_shape text _ x hx
    refine ⟨h1, ?_⟩
    exact (List.perm_insertionSort hdrLe headers).mem_iff.mp h2

/-- C10 witness: a concrete slice — header `(0, 2, "T")` over `"abcdef"`
yields the non-empty passage `"T\n\ncdef"`. -/
theorem C10_witness : strL "T\n\ncdef" ≠ [] :=
  (C10_slice_by_headers_shape (strL "abcdef") [(0, 2, strL "T")]).2.2.1
    (strL "T\n\ncdef") (by decide)
